import Mathlib

set_option linter.unnecessarySeqFocus false

/-!
Verification of the LoadTester core (src/loadtester.py) against its
natural-language specification.

The Python source is shallowly embedded: pure computations (metrics
recording, percentile computation, token-bucket arithmetic) become Lean
functions over `ℕ`/`ℤ`/`ℚ`; the concurrent worker/orchestrator behaviour
becomes small-step transition relations over an explicit run state, with
worker interleaving as nondeterministic choice of the next step.
-/

namespace LoadTester

/-! ## Metrics (loadtester.py lines 17-90)

`Metrics.status_counts` embeds the Python `Counter`: the Counter is a
multiset of the recorded present statuses, kept here as the list of
statuses in recording order; `List.count` gives `status_counts[s]` and
the sum of the Counter's values is the list's length. -/

/-- State of the `Metrics` dataclass (the CSV sink handle is modelled
separately in the run transition system; `start_time`/`end_time` are
passed to `summary` explicitly). -/
structure Metrics where
  total_requests : ℕ
  successful : ℕ
  failed : ℕ
  status_counts : List ℤ
  latencies_ms : List ℚ
  bytes_received : ℕ
deriving DecidableEq

/-- A fresh `Metrics(start_time=...)`: all counters zero, no samples. -/
def Metrics.init : Metrics := ⟨0, 0, 0, [], [], 0⟩

/-- `status is not None and 200 <= status < 400` (line 46). -/
def isSuccess (status : Option ℤ) : Bool :=
  match status with
  | some s => decide (200 ≤ s ∧ s < 400)
  | none => false

/-- `Metrics.record` (lines 44-53): increment `total_requests`; increment
`successful` iff the status is present and in `[200, 400)`, else `failed`;
count the status when present; append the latency; add the bytes. -/
def Metrics.record (m : Metrics) (status : Option ℤ) (latency_ms : ℚ)
    (bytes : ℕ) : Metrics :=
  { m with
    total_requests := m.total_requests + 1
    successful := if isSuccess status then m.successful + 1 else m.successful
    failed := if isSuccess status then m.failed else m.failed + 1
    status_counts :=
      match status with
      | some s => m.status_counts ++ [s]
      | none => m.status_counts
    latencies_ms := m.latencies_ms ++ [latency_ms]
    bytes_received := m.bytes_received + bytes }

/-- One recorded outcome: optional status, latency in ms, bytes received. -/
def Outcome : Type := Option ℤ × ℚ × ℕ

/-- Fold `Metrics.record` over a sequence of outcomes. -/
def Metrics.recordAll (m : Metrics) (os : List Outcome) : Metrics :=
  os.foldl (fun acc o => acc.record o.1 o.2.1 o.2.2) m

/-! ## Percentiles (lines 69-90) -/

/-- Python `int()` applied to a rational: truncation toward zero. -/
def pyInt (q : ℚ) : ℤ := if 0 ≤ q then ⌊q⌋ else ⌈q⌉

/-- Python's built-in `round` with no `ndigits`: round half to even. -/
def pyRound (q : ℚ) : ℤ :=
  let f := ⌊q⌋
  if q - f < 1 / 2 then f
  else if 1 / 2 < q - (f : ℚ) then f + 1
  else if f % 2 = 0 then f else f + 1

/-- The closure `pct` (lines 72-76) applied to the already-sorted list
`lat`: `None` when empty, else the element at
`int(max(0, min(len(lat)-1, round(p * (len(lat)-1)))))`. -/
def pctSorted (lat : List ℚ) (p : ℚ) : Option ℚ :=
  if lat = [] then none
  else
    some (lat.getD
      ((max 0 (min ((lat.length : ℤ) - 1)
        (pyRound (p * ((lat.length : ℤ) - 1))))).toNat) 0)

/-- `pct` as seen from the raw samples: `lat = sorted(latencies_ms)`
(line 71) followed by the nearest-rank lookup. -/
def pct (samples : List ℚ) (p : ℚ) : Option ℚ :=
  pctSorted (samples.insertionSort (· ≤ ·)) p

/-- The summary dict (lines 77-90). -/
structure Summary where
  elapsed_seconds : ℚ
  total_requests : ℕ
  successful : ℕ
  failed : ℕ
  throughput_rps : ℚ
  mean_latency_ms : Option ℚ
  median_latency_ms : Option ℚ
  p95_latency_ms : Option ℚ
  p99_latency_ms : Option ℚ
  status_counts : List ℤ
  bytes_received : ℕ
  avg_bytes_per_response : ℚ
deriving DecidableEq

/-- `Metrics.summary` (lines 69-90); `start_time`/`end_time` are the
wall-clock fields of the dataclass, passed explicitly. -/
def Metrics.summary (m : Metrics) (start_time end_time : ℚ) : Summary :=
  let elapsed := max (1 / 1000000000) (end_time - start_time)
  let lat := m.latencies_ms.insertionSort (· ≤ ·)
  { elapsed_seconds := elapsed
    total_requests := m.total_requests
    successful := m.successful
    failed := m.failed
    throughput_rps := if 0 < elapsed then (m.total_requests : ℚ) / elapsed else 0
    mean_latency_ms :=
      if lat = [] then none else some (lat.sum / (lat.length : ℚ))
    median_latency_ms := pctSorted lat (0.5)
    p95_latency_ms := pctSorted lat (0.95)
    p99_latency_ms := pctSorted lat (0.99)
    status_counts := m.status_counts
    bytes_received := m.bytes_received
    avg_bytes_per_response :=
      if m.total_requests ≠ 0 then (m.bytes_received : ℚ) / (m.total_requests : ℚ)
      else 0 }

/-! ## Worker issue/record section (lines 142-164)

The `try/except/finally` around the HTTP exchange.  The nondeterministic
environment outcome of the exchange is a `ReqResult`; the function returns
the metrics state after the `finally` block ran and whether a
`CancelledError` keeps propagating out of the worker afterwards.  Note the
`finally` block (lines 162-164) runs `metrics.record` on *every* path,
including the re-raised `asyncio.CancelledError` (lines 157-158). -/

/-- Environment outcome of `session.request(...)` within the `try` block. -/
inductive ReqResult
  /-- Response obtained: `status = resp.status`, `bytes = len(body)`. -/
  | success (status : ℤ) (bytes : ℕ)
  /-- `CancelledError` raised before `status = resp.status` ran. -/
  | cancelledEarly
  /-- `CancelledError` raised during `resp.read()`, after `status` was set. -/
  | cancelledDuringRead (status : ℤ)
  /-- Any other exception (connection failure, timeout, malformed response). -/
  | failure
deriving DecidableEq

/-- Lines 142-164: returns the metrics after the `finally` block and a flag
telling whether `CancelledError` propagates (terminating the worker). -/
def workerIssueRecord (m : Metrics) (res : ReqResult) (latency_ms : ℚ) :
    Metrics × Bool :=
  match res with
  | .success st b => (m.record (some st) latency_ms b, false)
  | .cancelledEarly => (m.record none latency_ms 0, true)
  | .cancelledDuringRead st => (m.record (some st) latency_ms 0, true)
  | .failure => (m.record none latency_ms 0, false)

/-! ## TokenBucket (lines 94-116)

`acquire` is embedded as a function of the refill observations the loop
makes: each loop iteration with `tokens < 1` reads `refill = delta * rate`
(line 108); if `refill >= 1` the tokens are topped up (line 110), otherwise
the coroutine suspends in `asyncio.sleep` (line 115) and retries.  The
embedding consumes one observation per iteration and reports, for a finite
observation list, whether the call completed (`some` final token count)
and how many times it slept. -/

/-- TokenBucket state (`rate`, `capacity`, `tokens`); `updated` and the
lock are timing/serialization artefacts folded into the refill
observations. -/
structure TokenBucket where
  rate : ℚ
  capacity : ℤ
  tokens : ℤ
deriving DecidableEq

/-- `TokenBucket.__init__` (lines 95-99): `capacity = int(burst)` when a
burst is given, else `max(1, int(rate_per_sec))`; `tokens = capacity`. -/
def TokenBucket.init (rate_per_sec : ℚ) (burst : Option ℤ) : TokenBucket :=
  let capacity := match burst with
    | some b => b
    | none => max 1 (pyInt rate_per_sec)
  ⟨rate_per_sec, capacity, capacity⟩

/-- The `acquire` loop (lines 102-116) on token count `t`, driven by the
list of successive `delta * rate` observations: result is `(some t', k)`
when the call completed leaving `t'` tokens after sleeping `k` times, and
`(none, k)` when the observations ran out before a token was available. -/
def acquireRun (cap : ℤ) : List ℚ → ℤ → Option ℤ × ℕ
  | [], t => if 1 ≤ t then (some (t - 1), 0) else (none, 0)
  | r :: rest, t =>
    if 1 ≤ t then (some (t - 1), 0)
    else if 1 ≤ r then acquireRun cap rest (min cap (t + pyInt r))
    else ((acquireRun cap rest t).1, (acquireRun cap rest t).2 + 1)

/-- The pure refill effect of a prefix of observations (line 110 iterated):
each observation `r ≥ 1` tops tokens up by `int(r)` capped at `cap`. -/
def refillFold (cap : ℤ) (t : ℤ) (evs : List ℚ) : ℤ :=
  evs.foldl (fun acc r => if 1 ≤ r then min cap (acc + pyInt r) else acc) t

/-- Line 222 of `run`:
`bucket = TokenBucket(args.qps, burst=args.concurrency) if args.qps and args.qps > 0 else None`. -/
def mkBucket (qps : ℚ) (concurrency : ℤ) : Option TokenBucket :=
  if 0 < qps then some (TokenBucket.init qps (some concurrency)) else none

/-! ## The run as a transition system (lines 120-169 and 218-271)

Worker concurrency is modelled by interleaving: a step relation picks one
coroutine and runs it up to its next suspension point.  Each worker is in
one of three phases: `running` (at the top of its loop, about to check the
end conditions), `inflight` (past admission; between issuing the request and the
`finally` block), `done` (returned or died).  The shared state also holds
the semaphore value (`budget`, count mode), the number of completed
`metrics.record` calls (`recorded`), whether the wall clock passed
`stop_at` (`deadline`, duration mode), whether `metrics.finalize()` ran
(`finalized`), and whether a CSV write has raised (`sinkFailed`). -/

/-- Phase of one worker coroutine. -/
inductive WPhase
  | running
  | inflight
  | done
deriving DecidableEq

/-- Shared state of one run. -/
structure RunState where
  workers : List WPhase
  budget : ℕ
  recorded : ℕ
  deadline : Bool
  finalized : Bool
  sinkFailed : Bool
deriving DecidableEq

/-- Number of workers currently in phase `p`. -/
def countPhase (p : WPhase) : List WPhase → ℕ
  | [] => 0
  | w :: ws => (if w = p then 1 else 0) + countPhase p ws

/-- The state right after `run` spawned the workers (lines 246-250):
`c` workers at the top of their loop; in count mode the semaphore holds
`n` permits (line 224). -/
def initState (c n : ℕ) : RunState :=
  ⟨List.replicate c .running, n, 0, false, false, false⟩

/-- Count-mode step relation (`stop_at is None`,
`remaining_counter = asyncio.Semaphore(n)`).  The parameter `fail`
enables the environment behaviour "a CSV row write raises" (lines 55-62);
with `fail = false` every CSV write (or the absence of a sink) succeeds.

  * `semAcquire`: `remaining_counter.acquire()` succeeds inside the 10 ms
    `wait_for` (line 135) — possible exactly when the semaphore is
    positive, since no worker ever releases it — and the worker proceeds
    to issue its request.
  * `semTimeout`: the semaphore is exhausted, `wait_for` raises
    `TimeoutError` and the worker returns (lines 136-137).
  * `complete`: the in-flight exchange finishes (response, transport
    error, or timeout), the `finally` block records the outcome
    (lines 162-164) and the worker loops.
  * `completeSinkFail`: the `finally` block's `metrics.record` updates the
    counters, then the CSV `writerow`/`flush` raises; the exception
    escapes the worker, which dies; `asyncio.gather(...,
    return_exceptions=True)` (line 263) swallows the exception.
  * `finalizeStep`: `gather` has returned — every worker terminated — and
    `metrics.finalize()` runs (line 271), exactly once. -/
inductive CStep (fail : Bool) : RunState → RunState → Prop
  | semAcquire (s : RunState) (i : ℕ)
      (hw : s.workers.get? i = some .running) (hb : 0 < s.budget) :
      CStep fail s
        { s with workers := s.workers.set i .inflight, budget := s.budget - 1 }
  | semTimeout (s : RunState) (i : ℕ)
      (hw : s.workers.get? i = some .running) (hb : s.budget = 0) :
      CStep fail s { s with workers := s.workers.set i .done }
  | complete (s : RunState) (i : ℕ)
      (hw : s.workers.get? i = some .inflight) :
      CStep fail s
        { s with workers := s.workers.set i .running, recorded := s.recorded + 1 }
  | completeSinkFail (s : RunState) (i : ℕ)
      (hw : s.workers.get? i = some .inflight) (hfail : fail = true) :
      CStep fail s
        { s with workers := s.workers.set i .done, recorded := s.recorded + 1,
                 sinkFailed := true }
  | finalizeStep (s : RunState)
      (hall : ∀ w ∈ s.workers, w = WPhase.done) (hf : s.finalized = false) :
      CStep fail s { s with finalized := true }

/-- Duration-mode step relation (`stop_at` set, no semaphore).

  * `tick`: the wall clock passes `stop_at` (irreversible).
  * `issue`: the worker's check `time.time() >= stop_at` (line 130) fails,
    so it proceeds to issue a request.
  * `deadlineExit`: the check succeeds and the worker returns (line 131).
  * `complete`: an in-flight exchange finishes and the `finally` block
    records it — the deadline does not preempt in-flight requests.
  * `finalizeStep`: `await asyncio.wait(workers, timeout=stop_at - now)`
    (lines 255-258) returns — either the timeout expired or all workers
    finished — and, with no shutdown signal, `metrics.finalize()` runs
    (line 271) immediately, without awaiting still-running workers. -/
inductive DStep : RunState → RunState → Prop
  | tick (s : RunState) (h : s.deadline = false) :
      DStep s { s with deadline := true }
  | issue (s : RunState) (i : ℕ)
      (hw : s.workers.get? i = some .running) (hd : s.deadline = false) :
      DStep s { s with workers := s.workers.set i .inflight }
  | deadlineExit (s : RunState) (i : ℕ)
      (hw : s.workers.get? i = some .running) (hd : s.deadline = true) :
      DStep s { s with workers := s.workers.set i .done }
  | complete (s : RunState) (i : ℕ)
      (hw : s.workers.get? i = some .inflight) :
      DStep s
        { s with workers := s.workers.set i .running, recorded := s.recorded + 1 }
  | finalizeStep (s : RunState)
      (hd : s.deadline = true ∨ ∀ w ∈ s.workers, w = WPhase.done)
      (hf : s.finalized = false) :
      DStep s { s with finalized := true }

/-! ## Helper lemmas about worker phase lists -/

lemma mem_of_getq_eq_some {α : Type} {l : List α} {i : ℕ} {a : α}
    (h : l.get? i = some a) : a ∈ l := by
  induction l generalizing i with
  | nil => simp [List.get?] at h
  | cons x xs ih =>
    cases i with
    | zero =>
      simp only [List.get?, Option.some.injEq] at h
      simp [h]
    | succ j =>
      simp only [List.get?] at h
      exact List.mem_cons_of_mem _ (ih h)

lemma countPhase_set (p b : WPhase) :
    ∀ (l : List WPhase) (i : ℕ) (a : WPhase), l.get? i = some a →
      countPhase p (l.set i b) + (if a = p then 1 else 0)
        = countPhase p l + (if b = p then 1 else 0) := by
  intro l
  induction l with
  | nil => intro i a h; simp [List.get?] at h
  | cons x xs ih =>
    intro i a h
    cases i with
    | zero =>
      simp only [List.get?, Option.some.injEq] at h
      subst h
      simp only [List.set, countPhase]
      ring
    | succ j =>
      simp only [List.get?] at h
      have h2 := ih j a h
      simp only [List.set, countPhase]
      generalize (if x = p then 1 else 0) = u at *
      omega

lemma countPhase_pos_iff {p : WPhase} {l : List WPhase} :
    p ∈ l ↔ 0 < countPhase p l := by
  induction l with
  | nil => simp [countPhase]
  | cons x xs ih =>
    by_cases hx : x = p
    · subst hx
      simp [countPhase, ih]
    · simp only [List.mem_cons, countPhase, if_neg hx, Nat.zero_add]
      rw [← ih]
      simp only [or_iff_right_iff_imp]
      intro h
      exact absurd h.symm hx

lemma countPhase_eq_zero_of_all {p : WPhase} {l : List WPhase}
    (hall : ∀ w ∈ l, w = WPhase.done) (hp : p ≠ WPhase.done) :
    countPhase p l = 0 := by
  induction l with
  | nil => rfl
  | cons x xs ih =>
    have hx : x = WPhase.done := hall x (by simp)
    have hxp : ¬ x = p := by rw [hx]; exact fun h => hp h.symm
    simp only [countPhase, if_neg hxp, Nat.zero_add]
    exact ih fun w hw => hall w (List.mem_cons_of_mem _ hw)

lemma countPhase_replicate_running (p : WPhase) (c : ℕ) (hp : p ≠ .running) :
    countPhase p (List.replicate c .running) = 0 := by
  induction c with
  | zero => rfl
  | succ k ih =>
    simp only [List.replicate, countPhase, ih]
    rw [if_neg fun h => hp h.symm]

/-! ## Run invariants -/

/-- Count-mode invariant: the semaphore permits still available, the
workers currently past admission, and the outcomes already recorded
always partition the configured total `n`; and once any worker has
exited, the semaphore is exhausted. -/
def CInv (c n : ℕ) (s : RunState) : Prop :=
  s.workers.length = c
  ∧ s.budget + countPhase .inflight s.workers + s.recorded = n
  ∧ (WPhase.done ∈ s.workers → s.budget = 0)

/-- Count-mode finalization invariant: `metrics.finalize()` has run only
if every worker already terminated. -/
def FInv (c : ℕ) (s : RunState) : Prop :=
  s.workers.length = c
  ∧ (s.finalized = true → ∀ w ∈ s.workers, w = WPhase.done)

lemma CInv_init (c n : ℕ) : CInv c n (initState c n) := by
  refine ⟨by simp [initState], ?_, ?_⟩
  · simp [initState, countPhase_replicate_running]
  · intro hmem
    have := List.eq_of_mem_replicate hmem
    simp at this

lemma FInv_init (c n : ℕ) : FInv c (initState c n) := by
  exact ⟨by simp [initState], by simp [initState]⟩

lemma CInv_step {c n : ℕ} {s s' : RunState} (h : CStep false s s')
    (hi : CInv c n s) : CInv c n s' := by
  obtain ⟨hlen, hsum, hdone⟩ := hi
  cases h with
  | semAcquire i hw hb =>
    refine ⟨by simpa using hlen, ?_, ?_⟩
    · have hc := countPhase_set .inflight .inflight s.workers i .running hw
      simp only [show (WPhase.running = WPhase.inflight) = False by simp, show (WPhase.inflight = WPhase.inflight) = True by simp, show (WPhase.running = WPhase.done) = False by simp, show (WPhase.inflight = WPhase.done) = False by simp, show (WPhase.done = WPhase.inflight) = False by simp, if_true, if_false] at hc
      simp only
      omega
    · intro hmem
      have hc := countPhase_set .done .inflight s.workers i .running hw
      simp only [show (WPhase.running = WPhase.inflight) = False by simp, show (WPhase.inflight = WPhase.inflight) = True by simp, show (WPhase.running = WPhase.done) = False by simp, show (WPhase.inflight = WPhase.done) = False by simp, show (WPhase.done = WPhase.inflight) = False by simp, if_true, if_false] at hc
      have hpos : 0 < countPhase .done (s.workers.set i .inflight) :=
        countPhase_pos_iff.mp hmem
      have : WPhase.done ∈ s.workers := countPhase_pos_iff.mpr (by omega)
      have := hdone this
      omega
  | semTimeout i hw hb =>
    refine ⟨by simpa using hlen, ?_, fun _ => hb⟩
    have hc := countPhase_set .inflight .done s.workers i .running hw
    simp only [show (WPhase.running = WPhase.inflight) = False by simp, show (WPhase.inflight = WPhase.inflight) = True by simp, show (WPhase.running = WPhase.done) = False by simp, show (WPhase.inflight = WPhase.done) = False by simp, show (WPhase.done = WPhase.inflight) = False by simp, if_true, if_false] at hc
    simp only
    omega
  | complete i hw =>
    refine ⟨by simpa using hlen, ?_, ?_⟩
    · have hc := countPhase_set .inflight .running s.workers i .inflight hw
      simp only [show (WPhase.running = WPhase.inflight) = False by simp, show (WPhase.inflight = WPhase.inflight) = True by simp, show (WPhase.running = WPhase.done) = False by simp, show (WPhase.inflight = WPhase.done) = False by simp, show (WPhase.done = WPhase.inflight) = False by simp, if_true, if_false] at hc
      simp only
      omega
    · intro hmem
      have hc := countPhase_set .done .running s.workers i .inflight hw
      simp only [show (WPhase.running = WPhase.inflight) = False by simp, show (WPhase.inflight = WPhase.inflight) = True by simp, show (WPhase.running = WPhase.done) = False by simp, show (WPhase.inflight = WPhase.done) = False by simp, show (WPhase.done = WPhase.inflight) = False by simp, if_true, if_false] at hc
      have hpos : 0 < countPhase .done (s.workers.set i .running) :=
        countPhase_pos_iff.mp hmem
      exact hdone (countPhase_pos_iff.mpr (by omega))
  | completeSinkFail i hw hfail => simp at hfail
  | finalizeStep hall hf => exact ⟨hlen, hsum, hdone⟩

lemma FInv_step {fail : Bool} {c : ℕ} {s s' : RunState} (h : CStep fail s s')
    (hi : FInv c s) : FInv c s' := by
  obtain ⟨hlen, hfin⟩ := hi
  cases h with
  | semAcquire i hw hb =>
    refine ⟨by simpa using hlen, fun hf => ?_⟩
    have hall := hfin hf
    exact ((by simp : WPhase.running ≠ WPhase.done)
      (hall _ (mem_of_getq_eq_some hw))).elim
  | semTimeout i hw hb =>
    refine ⟨by simpa using hlen, fun hf => ?_⟩
    have hall := hfin hf
    exact ((by simp : WPhase.running ≠ WPhase.done)
      (hall _ (mem_of_getq_eq_some hw))).elim
  | complete i hw =>
    refine ⟨by simpa using hlen, fun hf => ?_⟩
    have hall := hfin hf
    exact ((by simp : WPhase.inflight ≠ WPhase.done)
      (hall _ (mem_of_getq_eq_some hw))).elim
  | completeSinkFail i hw hfail =>
    refine ⟨by simpa using hlen, fun hf => ?_⟩
    have hall := hfin hf
    exact ((by simp : WPhase.inflight ≠ WPhase.done)
      (hall _ (mem_of_getq_eq_some hw))).elim
  | finalizeStep hall hf => exact ⟨hlen, fun _ => hall⟩

lemma CInv_reach {c n : ℕ} {s : RunState}
    (h : Relation.ReflTransGen (CStep false) (initState c n) s) : CInv c n s := by
  induction h with
  | refl => exact CInv_init c n
  | tail _ hstep ih => exact CInv_step hstep ih

lemma FInv_reach {fail : Bool} {c n : ℕ} {s : RunState}
    (h : Relation.ReflTransGen (CStep fail) (initState c n) s) : FInv c s := by
  induction h with
  | refl => exact FInv_init c n
  | tail _ hstep ih => exact FInv_step hstep ih

lemma record_total (m : Metrics) (st : Option ℤ) (lat : ℚ) (b : ℕ) :
    (m.record st lat b).total_requests = m.total_requests + 1 := rfl

lemma record_succ_add_failed (m : Metrics) (st : Option ℤ) (lat : ℚ) (b : ℕ) :
    (m.record st lat b).successful + (m.record st lat b).failed
      = m.successful + m.failed + 1 := by
  simp only [Metrics.record]
  cases isSuccess st <;> simp <;> omega

lemma record_lat_length (m : Metrics) (st : Option ℤ) (lat : ℚ) (b : ℕ) :
    (m.record st lat b).latencies_ms.length = m.latencies_ms.length + 1 := by
  simp [Metrics.record]

lemma record_counts_length (m : Metrics) (st : Option ℤ) (lat : ℚ) (b : ℕ) :
    (m.record st lat b).status_counts.length
      = m.status_counts.length + (if st.isSome then 1 else 0) := by
  cases st <;> simp [Metrics.record]

lemma recordAll_stats (os : List Outcome) : ∀ m : Metrics,
    ((m.recordAll os).total_requests = m.total_requests + os.length)
    ∧ ((m.recordAll os).successful + (m.recordAll os).failed
        = m.successful + m.failed + os.length)
    ∧ ((m.recordAll os).latencies_ms.length = m.latencies_ms.length + os.length)
    ∧ ((m.recordAll os).status_counts.length
        = m.status_counts.length + (os.filter (fun o => o.1.isSome)).length) := by
  induction os with
  | nil => intro m; simp [Metrics.recordAll]
  | cons o rest ih =>
    intro m
    obtain ⟨st, lat, b⟩ := o
    obtain ⟨h1, h2, h3, h4⟩ := ih (m.record st lat b)
    have hr : m.recordAll (⟨st, lat, b⟩ :: rest) = (m.record st lat b).recordAll rest := rfl
    have e1 := record_total m st lat b
    have e2 := record_succ_add_failed m st lat b
    have e3 := record_lat_length m st lat b
    have e4 := record_counts_length m st lat b
    refine ⟨?_, ?_, ?_, ?_⟩ <;> rw [hr]
    · rw [h1, e1]; simp; omega
    · rw [h2]; simp only [List.length_cons]; omega
    · rw [h3, e3]; simp; omega
    · rw [h4, e4, List.filter_cons]
      cases st <;> simp <;> omega

/-! ## Claim theorems -/

/-- C3: at every state reachable from the initial metrics state by a
finite sequence of `record` calls, `successful + failed = total_requests`,
`len(latencies_ms) = total_requests`, and the sum of the status
`Counter`'s values equals the number of recorded outcomes whose status
was present. -/
theorem metrics_counter_invariants (os : List Outcome) :
    (Metrics.init.recordAll os).successful + (Metrics.init.recordAll os).failed
      = (Metrics.init.recordAll os).total_requests
    ∧ (Metrics.init.recordAll os).latencies_ms.length
      = (Metrics.init.recordAll os).total_requests
    ∧ ((Metrics.init.recordAll os).status_counts.dedup.map
        (fun s => (Metrics.init.recordAll os).status_counts.count s)).sum
      = (os.filter (fun o => o.1.isSome)).length := by
  obtain ⟨h1, h2, h3, h4⟩ := recordAll_stats os Metrics.init
  refine ⟨?_, ?_, ?_⟩
  · rw [h1, h2]; rfl
  · rw [h1, h3]; rfl
  · rw [List.sum_map_count_dedup_eq_length, h4]; simp [Metrics.init]

/-- C5: one `record(status, latency_ms, bytes)` call increments
`total_requests` by exactly one; increments `successful` exactly when the
status is present and in `[200, 400)`, and `failed` in every other case
(exactly one of the two); bumps the status's `Counter` entry exactly when
the status is present; appends the latency to the sample sequence; and
adds the bytes to the running byte total. -/
theorem record_semantics (m : Metrics) (st : Option ℤ) (lat : ℚ) (b : ℕ) :
    (m.record st lat b).total_requests = m.total_requests + 1
    ∧ (∀ s : ℤ, st = some s → 200 ≤ s → s < 400 →
        (m.record st lat b).successful = m.successful + 1
        ∧ (m.record st lat b).failed = m.failed)
    ∧ (∀ s : ℤ, st = some s → ¬(200 ≤ s ∧ s < 400) →
        (m.record st lat b).failed = m.failed + 1
        ∧ (m.record st lat b).successful = m.successful)
    ∧ (st = none →
        (m.record st lat b).failed = m.failed + 1
        ∧ (m.record st lat b).successful = m.successful)
    ∧ (∀ s : ℤ, st = some s →
        (m.record st lat b).status_counts.count s = m.status_counts.count s + 1)
    ∧ (st = none → (m.record st lat b).status_counts = m.status_counts)
    ∧ (m.record st lat b).latencies_ms = m.latencies_ms ++ [lat]
    ∧ (m.record st lat b).bytes_received = m.bytes_received + b := by
  refine ⟨rfl, ?_, ?_, ?_, ?_, ?_, rfl, rfl⟩
  · rintro s rfl hlo hhi
    simp [Metrics.record, isSuccess, hlo, hhi]
  · rintro s rfl hrange
    simp only [Metrics.record, isSuccess]
    rw [if_neg (by simpa using hrange), if_neg (by simpa using hrange)]
    exact ⟨rfl, rfl⟩
  · rintro rfl
    simp [Metrics.record, isSuccess]
  · rintro s rfl
    simp [Metrics.record]
  · rintro rfl
    simp [Metrics.record]

/-- Witness for C5 at a concrete input. -/
theorem record_semantics_witness :
    (Metrics.init.record (some 250) 4 7).total_requests
        = Metrics.init.total_requests + 1
    ∧ (Metrics.init.record (some 250) 4 7).successful
        = Metrics.init.successful + 1
    ∧ (Metrics.init.record (some 250) 4 7).status_counts.count 250
        = Metrics.init.status_counts.count 250 + 1
    ∧ (Metrics.init.record (some 250) 4 7).latencies_ms
        = Metrics.init.latencies_ms ++ [4] := by
  obtain ⟨h1, h2, _, _, h5, _, h7, _⟩ :=
    record_semantics Metrics.init (some 250) 4 7
  exact ⟨h1, (h2 250 rfl (by norm_num) (by norm_num)).1, h5 250 rfl, h7⟩

/-- C2 (evaluation of the code at the failing input): a worker whose
in-flight attempt is cancelled still records an outcome.  The `finally`
block (lines 162-164) runs `metrics.record(None, latency_ms, 0)` while
the `CancelledError` re-raised at line 158 is propagating, so the
cancelled attempt increments `total_requests` and `failed` and
contributes its latency — contradicting the specified behaviour that a
cancelled attempt is never recorded. -/
theorem cancelled_attempt_is_recorded :
    ((workerIssueRecord Metrics.init .cancelledEarly 7).1.total_requests = 1)
    ∧ ((workerIssueRecord Metrics.init .cancelledEarly 7).1.failed = 1)
    ∧ ((workerIssueRecord Metrics.init .cancelledEarly 7).1.latencies_ms = [7])
    ∧ ((workerIssueRecord Metrics.init .cancelledEarly 7).2 = true) :=
  ⟨rfl, rfl, rfl, rfl⟩

/-- C4: for a non-empty sample list, every percentile `p` reported by
`summary()` is the element of the ascending-sorted samples at index
`round(p * (n-1))` clamped to `[0, n-1]`; for an empty sample list the
percentile is `None`; in particular for samples `[10,20,30,40,50]`,
`p95_latency_ms = 50` and `median_latency_ms = 30`. -/
theorem percentile_nearest_rank :
    (∀ (samples : List ℚ) (p : ℚ) (l : List ℚ),
        samples.Perm l → l.Sorted (· ≤ ·) → samples ≠ [] →
        pct samples p = some (l.getD
          ((max 0 (min ((samples.length : ℤ) - 1)
            (pyRound (p * ((samples.length : ℤ) - 1))))).toNat) 0))
    ∧ (∀ p : ℚ, pct [] p = none)
    ∧ ((Metrics.init.recordAll
          [(some 200, 10, 0), (some 200, 20, 0), (some 200, 30, 0),
           (some 200, 40, 0), (some 200, 50, 0)]).summary 0 1).p95_latency_ms
        = some 50
    ∧ ((Metrics.init.recordAll
          [(some 200, 10, 0), (some 200, 20, 0), (some 200, 30, 0),
           (some 200, 40, 0), (some 200, 50, 0)]).summary 0 1).median_latency_ms
        = some 30 := by
  refine ⟨?_, ?_, ?_, ?_⟩
  · intro samples p l hperm hsort hne
    have hsorted : samples.insertionSort (· ≤ ·) = l :=
      List.eq_of_perm_of_sorted ((List.perm_insertionSort _ _).trans hperm)
        (List.sorted_insertionSort _ _) hsort
    have hlne : l ≠ [] := by
      intro h
      exact hne (List.Perm.eq_nil (h ▸ hperm))
    have hlen : l.length = samples.length := (List.Perm.length_eq hperm).symm
    unfold pct pctSorted
    rw [hsorted, if_neg hlne, hlen]
  · intro p
    simp [pct, pctSorted, List.insertionSort]
  · norm_num [Metrics.recordAll, Metrics.record, Metrics.init, Metrics.summary,
      isSuccess, pctSorted, pyRound, List.insertionSort, List.orderedInsert,
      List.getD]
    simp [Int.toNat_ofNat]
  · norm_num [Metrics.recordAll, Metrics.record, Metrics.init, Metrics.summary,
      isSuccess, pctSorted, pyRound, List.insertionSort, List.orderedInsert,
      List.getD]
    simp [Int.toNat_ofNat]

/-- Witness for C4 at a concrete input: samples `[20, 10]`, whose sorted
permutation is `[10, 20]`, have median `10`. -/
theorem percentile_nearest_rank_witness :
    ([20, 10] : List ℚ).Perm [10, 20]
    ∧ ([10, 20] : List ℚ).Sorted (· ≤ ·)
    ∧ ([20, 10] : List ℚ) ≠ []
    ∧ pct [20, 10] (1 / 2) = some 10 := by
  have hperm : ([20, 10] : List ℚ).Perm [10, 20] := List.Perm.swap 10 20 []
  have hsort : ([10, 20] : List ℚ).Sorted (· ≤ ·) := by
    simp [List.sorted_cons]
    norm_num
  refine ⟨hperm, hsort, by simp, ?_⟩
  have h := percentile_nearest_rank.1 [20, 10] (1 / 2) [10, 20] hperm hsort (by simp)
  rw [h]
  norm_num [pyRound, List.getD]

/-- C10: the percentile index uses Python's round-half-to-even: at exact
half-integers `pyRound` returns the even neighbour rather than rounding
up, so for two samples `[a, b]` with `a ≤ b` the median index is
`round(0.5) = 0` and `median_latency_ms` is `a`, not `b`. -/
theorem median_round_half_even :
    (∀ z : ℤ, pyRound ((z : ℚ) + 1 / 2) = if z % 2 = 0 then z else z + 1)
    ∧ (∀ a b : ℚ, a ≤ b → pct [a, b] (1 / 2) = some a)
    ∧ ((Metrics.init.recordAll
          [(some 200, 20, 0), (some 200, 10, 0)]).summary 0 1).median_latency_ms
        = some 10 := by
  refine ⟨?_, ?_, ?_⟩
  · intro z
    have hfloor : ⌊(z : ℚ) + 1 / 2⌋ = z := by
      rw [add_comm, Int.floor_add_int]
      norm_num
    have hfrac : (z : ℚ) + 1 / 2 - (z : ℤ) = 1 / 2 := by ring
    simp only [pyRound, hfloor, hfrac]
    norm_num
  · intro a b hab
    have hsort : List.insertionSort (· ≤ ·) [a, b] = [a, b] := by
      simp [List.insertionSort, List.orderedInsert, hab]
    unfold pct
    rw [hsort]
    norm_num [pctSorted, pyRound, List.getD]
    simp
  · norm_num [Metrics.recordAll, Metrics.record, Metrics.init, Metrics.summary,
      isSuccess, pctSorted, pyRound, List.insertionSort, List.orderedInsert,
      List.getD]
    simp [Int.toNat_ofNat]

/-- Witness for C10 at a concrete input. -/
theorem median_round_half_even_witness :
    ((10 : ℚ) ≤ 20) ∧ pct [10, 20] (1 / 2) = some 10 :=
  ⟨by norm_num, median_round_half_even.2.1 10 20 (by norm_num)⟩

lemma pyInt_ge_one {r : ℚ} (hr : 1 ≤ r) : 1 ≤ pyInt r := by
  have h0 : (0 : ℚ) ≤ r := le_trans (by norm_num) hr
  simp only [pyInt, if_pos h0]
  exact Int.le_floor.mpr (by exact_mod_cast hr)

lemma acquireRun_bounds {cap : ℤ} (hcap : 1 ≤ cap) :
    ∀ (evs : List ℚ) (t t' : ℤ) (k : ℕ), 0 ≤ t → t ≤ cap →
      acquireRun cap evs t = (some t', k) → 0 ≤ t' ∧ t' ≤ cap := by
  intro evs
  induction evs with
  | nil =>
    intro t t' k h0 hc h
    simp only [acquireRun] at h
    by_cases h1 : 1 ≤ t
    · rw [if_pos h1] at h
      simp only [Prod.mk.injEq, Option.some.injEq] at h
      omega
    · rw [if_neg h1] at h
      simp at h
  | cons r rest ih =>
    intro t t' k h0 hc h
    simp only [acquireRun] at h
    by_cases h1 : 1 ≤ t
    · rw [if_pos h1] at h
      simp only [Prod.mk.injEq, Option.some.injEq] at h
      omega
    · rw [if_neg h1] at h
      by_cases hr : 1 ≤ r
      · rw [if_pos hr] at h
        have hk := pyInt_ge_one hr
        refine ih _ t' k ?_ (min_le_left _ _) h
        exact le_min (by omega) (by omega)
      · rw [if_neg hr] at h
        rcases hres : acquireRun cap rest t with ⟨o, k2⟩
        rw [hres] at h
        simp only [Prod.mk.injEq] at h
        exact ih t t' k2 h0 hc (by rw [hres, h.1])

lemma acquireRun_consumes (cap : ℤ) :
    ∀ (evs : List ℚ) (t t' : ℤ) (k : ℕ), acquireRun cap evs t = (some t', k) →
      ∃ pre post, evs = pre ++ post ∧ 1 ≤ refillFold cap t pre
        ∧ t' = refillFold cap t pre - 1 := by
  intro evs
  induction evs with
  | nil =>
    intro t t' k h
    simp only [acquireRun] at h
    by_cases h1 : 1 ≤ t
    · rw [if_pos h1] at h
      simp only [Prod.mk.injEq, Option.some.injEq] at h
      exact ⟨[], [], rfl, by simpa [refillFold] using h1,
        by simp [refillFold]; omega⟩
    · rw [if_neg h1] at h
      simp at h
  | cons r rest ih =>
    intro t t' k h
    simp only [acquireRun] at h
    by_cases h1 : 1 ≤ t
    · rw [if_pos h1] at h
      simp only [Prod.mk.injEq, Option.some.injEq] at h
      exact ⟨[], r :: rest, rfl, by simpa [refillFold] using h1,
        by simp [refillFold]; omega⟩
    · rw [if_neg h1] at h
      by_cases hr : 1 ≤ r
      · rw [if_pos hr] at h
        obtain ⟨pre, post, hsplit, hge, ht'⟩ := ih _ t' k h
        refine ⟨r :: pre, post, by simp [hsplit], ?_, ?_⟩
        · simpa [refillFold, if_pos hr] using hge
        · simpa [refillFold, if_pos hr] using ht'
      · rw [if_neg hr] at h
        rcases hres : acquireRun cap rest t with ⟨o, k2⟩
        rw [hres] at h
        simp only [Prod.mk.injEq] at h
        obtain ⟨pre, post, hsplit, hge, ht'⟩ :=
          ih t t' k2 (by rw [hres, h.1])
        refine ⟨r :: pre, post, by simp [hsplit], ?_, ?_⟩
        · simpa [refillFold, if_neg hr] using hge
        · simpa [refillFold, if_neg hr] using ht'

/-- C6: for every TokenBucket whose constructed capacity is at least 1:
`0 ≤ tokens ≤ capacity` holds at construction; every completed `acquire`
preserves it; every completed `acquire` consumes exactly one token net of
the refills it performed; and a single refill step never decreases the
tokens and never pushes them above the capacity. -/
theorem token_bucket_invariant (rate : ℚ) (burst : Option ℤ)
    (hcap : 1 ≤ (TokenBucket.init rate burst).capacity) :
    (0 ≤ (TokenBucket.init rate burst).tokens
      ∧ (TokenBucket.init rate burst).tokens
          ≤ (TokenBucket.init rate burst).capacity)
    ∧ (∀ (evs : List ℚ) (t t' : ℤ) (k : ℕ), 0 ≤ t →
        t ≤ (TokenBucket.init rate burst).capacity →
        acquireRun (TokenBucket.init rate burst).capacity evs t = (some t', k) →
        0 ≤ t' ∧ t' ≤ (TokenBucket.init rate burst).capacity)
    ∧ (∀ (evs : List ℚ) (t t' : ℤ) (k : ℕ),
        acquireRun (TokenBucket.init rate burst).capacity evs t = (some t', k) →
        ∃ pre post, evs = pre ++ post
          ∧ 1 ≤ refillFold (TokenBucket.init rate burst).capacity t pre
          ∧ t' = refillFold (TokenBucket.init rate burst).capacity t pre - 1)
    ∧ (∀ (t : ℤ) (r : ℚ), t ≤ (TokenBucket.init rate burst).capacity → 1 ≤ r →
        t ≤ min (TokenBucket.init rate burst).capacity (t + pyInt r)
        ∧ min (TokenBucket.init rate burst).capacity (t + pyInt r)
            ≤ (TokenBucket.init rate burst).capacity) := by
  have htok : (TokenBucket.init rate burst).tokens
      = (TokenBucket.init rate burst).capacity := rfl
  refine ⟨⟨by omega, by omega⟩, ?_, ?_, ?_⟩
  · intro evs t t' k h0 hc h
    exact acquireRun_bounds hcap evs t t' k h0 hc h
  · intro evs t t' k h
    exact acquireRun_consumes _ evs t t' k h
  · intro t r hc hr
    have hk := pyInt_ge_one hr
    exact ⟨le_min hc (by omega), min_le_left _ _⟩

/-- Witness for C6 at a concrete input: `TokenBucket(2)`. -/
theorem token_bucket_invariant_witness :
    (1 ≤ (TokenBucket.init 2 none).capacity)
    ∧ (0 ≤ (TokenBucket.init 2 none).tokens
       ∧ (TokenBucket.init 2 none).tokens ≤ (TokenBucket.init 2 none).capacity) :=
  ⟨by norm_num [TokenBucket.init, pyInt],
   (token_bucket_invariant 2 none (by norm_num [TokenBucket.init, pyInt])).1⟩

/-- C8 counterexample: the claim "a TokenBucket constructed with
`rate = 0` never blocks" is false.  `TokenBucket(0)` has capacity 1 and
one token; the first `acquire` completes without sleeping, but the next
call starts from 0 tokens, every refill observation is `delta * 0 = 0`,
so the loop suspends in `asyncio.sleep` (line 115) on every iteration and
never completes — here it sleeps once per observation and completes for
no observation list. -/
theorem rate_zero_acquire_blocks :
    (TokenBucket.init 0 none).capacity = 1
    ∧ (TokenBucket.init 0 none).tokens = 1
    ∧ acquireRun 1 [] 1 = (some 0, 0)
    ∧ acquireRun 1 [0] 0 = (none, 1)
    ∧ acquireRun 1 [0, 0, 0] 0 = (none, 3) := by
  refine ⟨?_, ?_, ?_, ?_, ?_⟩ <;>
    norm_num [TokenBucket.init, pyInt, acquireRun]

/-- C8 (amended): when `qps = 0` the program constructs no `TokenBucket`
at all (line 222), so no `acquire` call ever happens; a bucket used with
`rate = 0` never blocks only while it still has tokens — once
`tokens < 1`, every refill observation is `delta * 0 = 0 < 1`, so
`acquire` sleeps on every loop iteration and never completes. -/
theorem rate_zero_omits_bucket (qps : ℚ) (conc : ℤ) (hq : ¬ 0 < qps) :
    mkBucket qps conc = none
    ∧ (∀ (cap t : ℤ) (evs : List ℚ), t < 1 → (∀ r ∈ evs, r = 0) →
        acquireRun cap evs t = (none, evs.length)) := by
  constructor
  · simp [mkBucket, hq]
  · intro cap t evs
    induction evs with
    | nil =>
      intro ht _
      simp only [acquireRun, List.length_nil]
      rw [if_neg (by omega)]
    | cons r rest ih =>
      intro ht hz
      have hr : r = 0 := hz r (by simp)
      have hrest : ∀ x ∈ rest, x = 0 := fun x hx => hz x (by simp [hx])
      simp only [acquireRun, List.length_cons]
      rw [if_neg (by omega), if_neg (by rw [hr]; norm_num), ih ht hrest]

/-- Witness for C8's amended claim at a concrete input. -/
theorem rate_zero_omits_bucket_witness :
    (¬ (0 : ℚ) < 0) ∧ mkBucket 0 5 = none
    ∧ ((0 : ℤ) < 1) ∧ (∀ r ∈ ([0] : List ℚ), r = 0)
    ∧ acquireRun 1 [0] 0 = (none, 1) := by
  have h := rate_zero_omits_bucket 0 5 (by norm_num)
  exact ⟨by norm_num, h.1, by norm_num, by simp,
    by simpa using h.2 1 0 [0] (by norm_num) (by simp)⟩

lemma lget_set_self {α : Type} :
    ∀ (l : List α) (i : ℕ) (a b : α), l.get? i = some a →
      (l.set i b).get? i = some b := by
  intro l
  induction l with
  | nil => intro i a b h; simp [List.get?] at h
  | cons x xs ih =>
    intro i a b h
    cases i with
    | zero => rfl
    | succ j =>
      simp only [List.get?] at h
      simp only [List.set, List.get?]
      exact ih j a b h

lemma lget_set_other {α : Type} :
    ∀ (l : List α) (i j : ℕ) (b : α), i ≠ j →
      (l.set i b).get? j = l.get? j := by
  intro l
  induction l with
  | nil => intro i j b _; simp [List.set]
  | cons x xs ih =>
    intro i j b hij
    cases i with
    | zero =>
      cases j with
      | zero => exact absurd rfl hij
      | succ j2 => rfl
    | succ i2 =>
      cases j with
      | zero => rfl
      | succ j2 =>
        simp only [List.set, List.get?]
        exact ih i2 j2 b (fun h => hij (by rw [h]))

/-- C1: in fixed-count mode with `c ≥ 1` workers and a request budget of
`n`, along every scheduling interleaving (no cancellation, no sink
failure) the number of completed `metrics.record` calls never exceeds
`n`, and once every worker has exited it equals `n` exactly — so the
final summary's `total_requests` is `n`, never more and never fewer. -/
theorem count_mode_records_exactly_n (c n : ℕ) (hc : 1 ≤ c) (s : RunState)
    (hreach : Relation.ReflTransGen (CStep false) (initState c n) s) :
    s.recorded ≤ n
    ∧ ((∀ w ∈ s.workers, w = WPhase.done) → s.recorded = n) := by
  obtain ⟨hlen, hsum, hdone⟩ := CInv_reach hreach
  constructor
  · omega
  · intro hall
    have hne : s.workers ≠ [] := by
      intro h
      rw [h] at hlen
      simp at hlen
      omega
    obtain ⟨w, hw⟩ := List.exists_mem_of_ne_nil s.workers hne
    have hmem : WPhase.done ∈ s.workers := hall w hw ▸ hw
    have hb0 := hdone hmem
    have hinf : countPhase .inflight s.workers = 0 :=
      countPhase_eq_zero_of_all hall (by simp)
    omega

/-- Witness for C1: one worker, budget 1, a full interleaving ending with
all workers done and exactly one recorded outcome. -/
theorem count_mode_records_exactly_n_witness :
    (1 ≤ 1)
    ∧ Relation.ReflTransGen (CStep false) (initState 1 1)
        (⟨[WPhase.done], 0, 1, false, false, false⟩ : RunState)
    ∧ ((⟨[WPhase.done], 0, 1, false, false, false⟩ : RunState).recorded ≤ 1
       ∧ ((∀ w ∈ (⟨[WPhase.done], 0, 1, false, false, false⟩ : RunState).workers,
            w = WPhase.done) →
          (⟨[WPhase.done], 0, 1, false, false, false⟩ : RunState).recorded = 1)) := by
  have h1 : CStep false (initState 1 1)
      (⟨[WPhase.inflight], 0, 0, false, false, false⟩ : RunState) :=
    CStep.semAcquire (initState 1 1) 0 rfl (by decide)
  have h2 : CStep false (⟨[WPhase.inflight], 0, 0, false, false, false⟩ : RunState)
      (⟨[WPhase.running], 0, 1, false, false, false⟩ : RunState) :=
    CStep.complete _ 0 rfl
  have h3 : CStep false (⟨[WPhase.running], 0, 1, false, false, false⟩ : RunState)
      (⟨[WPhase.done], 0, 1, false, false, false⟩ : RunState) :=
    CStep.semTimeout _ 0 rfl rfl
  have htr := Relation.ReflTransGen.head h1 (Relation.ReflTransGen.head h2
      (Relation.ReflTransGen.head h3 Relation.ReflTransGen.refl))
  exact ⟨le_refl 1, htr, count_mode_records_exactly_n 1 1 (le_refl 1) _ htr⟩

/-- C7 (amended): `metrics.finalize()` runs at most once per run; in
count mode it runs only after every worker has terminated, and from a
finalized reachable state no further step — in particular no `record`
call — is possible.  (In duration mode, by contrast, a worker still in
flight at the deadline may record after finalize; see the
counterexample.) -/
theorem finalize_once_after_workers (fail : Bool) (c n : ℕ) (s : RunState)
    (hreach : Relation.ReflTransGen (CStep fail) (initState c n) s)
    (hfin : s.finalized = true) :
    (∀ w ∈ s.workers, w = WPhase.done) ∧ ∀ s', ¬ CStep fail s s' := by
  obtain ⟨hlen, hf⟩ := FInv_reach hreach
  have hall := hf hfin
  refine ⟨hall, ?_⟩
  intro s' hstep
  cases hstep with
  | semAcquire i hw hb =>
    exact (by simp : WPhase.running ≠ WPhase.done)
      (hall _ (mem_of_getq_eq_some hw))
  | semTimeout i hw hb =>
    exact (by simp : WPhase.running ≠ WPhase.done)
      (hall _ (mem_of_getq_eq_some hw))
  | complete i hw =>
    exact (by simp : WPhase.inflight ≠ WPhase.done)
      (hall _ (mem_of_getq_eq_some hw))
  | completeSinkFail i hw hfail =>
    exact (by simp : WPhase.inflight ≠ WPhase.done)
      (hall _ (mem_of_getq_eq_some hw))
  | finalizeStep hall2 hf2 => simp [hfin] at hf2

/-- Witness for C7's amended claim: a finished count-mode run. -/
theorem finalize_once_after_workers_witness :
    Relation.ReflTransGen (CStep false) (initState 1 0)
      (⟨[WPhase.done], 0, 0, false, true, false⟩ : RunState)
    ∧ (⟨[WPhase.done], 0, 0, false, true, false⟩ : RunState).finalized = true
    ∧ ((∀ w ∈ (⟨[WPhase.done], 0, 0, false, true, false⟩ : RunState).workers,
          w = WPhase.done)
       ∧ ∀ s', ¬ CStep false
          (⟨[WPhase.done], 0, 0, false, true, false⟩ : RunState) s') := by
  have h1 : CStep false (initState 1 0)
      (⟨[WPhase.done], 0, 0, false, false, false⟩ : RunState) :=
    CStep.semTimeout _ 0 rfl rfl
  have h2 : CStep false (⟨[WPhase.done], 0, 0, false, false, false⟩ : RunState)
      (⟨[WPhase.done], 0, 0, false, true, false⟩ : RunState) :=
    CStep.finalizeStep _ (by decide) rfl
  have htr := Relation.ReflTransGen.head h1
      (Relation.ReflTransGen.head h2 Relation.ReflTransGen.refl)
  exact ⟨htr, rfl, finalize_once_after_workers false 1 0 _ htr rfl⟩

/-- C7 counterexample: in duration mode the orchestrator's
`asyncio.wait(workers, timeout=...)` returns at the deadline without
cancelling in-flight workers, and `metrics.finalize()` runs immediately
(line 271); the still-in-flight worker then completes and its `finally`
block records — a `record` call after `finalize()`, refuting the claim
for duration mode. -/
theorem duration_record_after_finalize :
    Relation.ReflTransGen DStep (initState 1 0)
      (⟨[WPhase.inflight], 0, 0, true, true, false⟩ : RunState)
    ∧ (⟨[WPhase.inflight], 0, 0, true, true, false⟩ : RunState).finalized = true
    ∧ (⟨[WPhase.inflight], 0, 0, true, true, false⟩ : RunState).recorded = 0
    ∧ DStep (⟨[WPhase.inflight], 0, 0, true, true, false⟩ : RunState)
        (⟨[WPhase.running], 0, 1, true, true, false⟩ : RunState)
    ∧ (⟨[WPhase.running], 0, 1, true, true, false⟩ : RunState).recorded = 1 := by
  have h1 : DStep (initState 1 0)
      (⟨[WPhase.inflight], 0, 0, false, false, false⟩ : RunState) :=
    DStep.issue _ 0 rfl rfl
  have h2 : DStep (⟨[WPhase.inflight], 0, 0, false, false, false⟩ : RunState)
      (⟨[WPhase.inflight], 0, 0, true, false, false⟩ : RunState) :=
    DStep.tick _ rfl
  have h3 : DStep (⟨[WPhase.inflight], 0, 0, true, false, false⟩ : RunState)
      (⟨[WPhase.inflight], 0, 0, true, true, false⟩ : RunState) :=
    DStep.finalizeStep _ (Or.inl rfl) rfl
  refine ⟨Relation.ReflTransGen.head h1 (Relation.ReflTransGen.head h2
      (Relation.ReflTransGen.head h3 Relation.ReflTransGen.refl)), rfl, rfl, ?_, rfl⟩
  exact DStep.complete _ 0 rfl

/-- C9 counterexample: a CSV write failure mid-run does not terminate the
run as an error.  The failing worker dies after the counters were already
updated, `asyncio.gather(..., return_exceptions=True)` (line 263)
swallows the exception, and the run finalizes and produces a summary from
partial metrics: only 1 of the 2 budgeted requests was recorded. -/
theorem sink_failure_run_still_summarizes :
    Relation.ReflTransGen (CStep true) (initState 1 2)
      (⟨[WPhase.done], 1, 1, false, true, true⟩ : RunState)
    ∧ (⟨[WPhase.done], 1, 1, false, true, true⟩ : RunState).sinkFailed = true
    ∧ (⟨[WPhase.done], 1, 1, false, true, true⟩ : RunState).finalized = true
    ∧ (⟨[WPhase.done], 1, 1, false, true, true⟩ : RunState).recorded = 1
    ∧ (1 : ℕ) < 2 := by
  have h1 : CStep true (initState 1 2)
      (⟨[WPhase.inflight], 1, 0, false, false, false⟩ : RunState) :=
    CStep.semAcquire _ 0 rfl (by decide)
  have h2 : CStep true (⟨[WPhase.inflight], 1, 0, false, false, false⟩ : RunState)
      (⟨[WPhase.done], 1, 1, false, false, true⟩ : RunState) :=
    CStep.completeSinkFail _ 0 rfl rfl
  have h3 : CStep true (⟨[WPhase.done], 1, 1, false, false, true⟩ : RunState)
      (⟨[WPhase.done], 1, 1, false, true, true⟩ : RunState) :=
    CStep.finalizeStep _ (by decide) rfl
  exact ⟨Relation.ReflTransGen.head h1 (Relation.ReflTransGen.head h2
      (Relation.ReflTransGen.head h3 Relation.ReflTransGen.refl)),
    rfl, rfl, rfl, by norm_num⟩

/-- C9 (amended): a CSV write failure during `record` kills only the
worker that hit it: that worker transitions to `done` (its counters
already updated) and never takes another step, while the orchestrator's
completion path is unaffected — once all workers are done, finalize (and
the summary) still proceeds; the error is never surfaced. -/
theorem sink_failure_kills_only_worker :
    (∀ (s : RunState) (i : ℕ), s.workers.get? i = some WPhase.inflight →
      CStep true s
        { s with workers := s.workers.set i WPhase.done,
                 recorded := s.recorded + 1, sinkFailed := true }
      ∧ (s.workers.set i WPhase.done).get? i = some WPhase.done)
    ∧ (∀ (s s' : RunState) (i : ℕ), CStep true s s' →
        s.workers.get? i = some WPhase.done →
        s'.workers.get? i = some WPhase.done)
    ∧ (∀ s : RunState, (∀ w ∈ s.workers, w = WPhase.done) →
        s.finalized = false → CStep true s { s with finalized := true }) := by
  refine ⟨?_, ?_, ?_⟩
  · intro s i hw
    exact ⟨CStep.completeSinkFail s i hw rfl, lget_set_self _ _ _ _ hw⟩
  · intro s s' i hstep hdone
    cases hstep with
    | semAcquire j hw hb =>
      have hij : j ≠ i := by
        intro h
        rw [h, hdone] at hw
        simp at hw
      simp only
      rw [lget_set_other _ _ _ _ hij]
      exact hdone
    | semTimeout j hw hb =>
      have hij : j ≠ i := by
        intro h
        rw [h, hdone] at hw
        simp at hw
      simp only
      rw [lget_set_other _ _ _ _ hij]
      exact hdone
    | complete j hw =>
      have hij : j ≠ i := by
        intro h
        rw [h, hdone] at hw
        simp at hw
      simp only
      rw [lget_set_other _ _ _ _ hij]
      exact hdone
    | completeSinkFail j hw hfail =>
      have hij : j ≠ i := by
        intro h
        rw [h, hdone] at hw
        simp at hw
      simp only
      rw [lget_set_other _ _ _ _ hij]
      exact hdone
    | finalizeStep hall hf => exact hdone
  · intro s hall hf
    exact CStep.finalizeStep s hall hf

/-- Witness for C9's amended claim at a concrete state. -/
theorem sink_failure_kills_only_worker_witness :
    ((⟨[WPhase.inflight], 0, 0, false, false, false⟩ : RunState).workers.get? 0
        = some WPhase.inflight)
    ∧ (CStep true (⟨[WPhase.inflight], 0, 0, false, false, false⟩ : RunState)
        (⟨[WPhase.done], 0, 1, false, false, true⟩ : RunState)
       ∧ (([WPhase.inflight] : List WPhase).set 0 WPhase.done).get? 0
          = some WPhase.done) :=
  ⟨rfl, sink_failure_kills_only_worker.1
    ⟨[WPhase.inflight], 0, 0, false, false, false⟩ 0 rfl⟩

end LoadTester
